import Mathlib

/-!
Verification of the core data structures and scheduler of gedit-grammalecte.

The development shallowly embeds:
* `src/plugin/avltree.py` — the AVL tree (`_BNode`, `AvlTree`);
* `src/plugin/error.py` — `GrammalecteError` positions;
* `src/plugin/errorstore.py` — `GrammalecteErrorStore` comparison and search;
* `src/plugin/analyzer.py` — `_SingleAnalyzer.run` and the
  `GrammalecteAnalyzer` request scheduler.
-/

namespace GeditGrammalecte

/-- A node of the binary tree of `avltree.py`: one element, optional left and
right children.  `nil` plays the role both of an absent child (`None`) and of
an empty `AvlTree` (absent root).  The source's parent back-pointers and the
lazily cached height are representation devices of the imperative code: the
pure embedding recomputes heights (`height` below) and threads the parent
context through recursion instead. -/
inductive AvlTree (α : Type) : Type where
  | nil : AvlTree α
  | node : AvlTree α → α → AvlTree α → AvlTree α
deriving DecidableEq, Repr

namespace AvlTree

variable {α : Type}

/-- Embeds `_BNode.height` / `_BNode.__get_height`: the height of an absent child is
`-1`, otherwise `max (height left) (height right) + 1`.  (The source caches the
value and recomputes it lazily after invalidation; the cached value always
equals this recomputation.) -/
def height : AvlTree α → Int
  | .nil => -1
  | .node l _ r => max (height l) (height r) + 1

/-- Embeds `_BNode.__len__` (and `AvlTree.__len__` with `0` for an absent root). -/
def size : AvlTree α → Nat
  | .nil => 0
  | .node l _ r => 1 + size l + size r

/-- Embeds `_BNode.__iter__` (and `AvlTree.__iter__`): in-order traversal, left
subtree, the element, right subtree. -/
def toList : AvlTree α → List α
  | .nil => []
  | .node l x r => toList l ++ x :: toList r

/-- Embeds `_BNode.__left_rotate`: the node is rotated to the left of its right
child, which takes its place; the right child's former left subtree becomes
the node's new right subtree.  The source asserts that the right child
exists; on any other shape the embedding returns the tree unchanged. -/
def left_rotate : AvlTree α → AvlTree α
  | .node l x (.node rl rx rr) => .node (.node l x rl) rx rr
  | t => t

/-- Embeds `_BNode.__right_rotate`: the node is rotated to the right of its left
child, which takes its place; the left child's former right subtree becomes
the node's new left subtree.  The source asserts that the left child exists;
on any other shape the embedding returns the tree unchanged. -/
def right_rotate : AvlTree α → AvlTree α
  | .node (.node ll lx lr) x r => .node ll lx (.node lr x r)
  | t => t

/-- The height comparison performed by `_BNode.balance` at one visited node:
if the left subtree is taller by more than one, rotate right (preceded by a
left rotation of the left child in the left-right case, chosen when the left
child's left grandchild is strictly lower than its right grandchild);
symmetrically for a right-heavy node; otherwise leave the node unchanged.
The source's inner `assert isinstance(...)` branches are unreachable (an
imbalance greater than one forces the taller child to exist); the embedding
returns the tree unchanged there. -/
def balance_step : AvlTree α → AvlTree α
  | .nil => .nil
  | .node l x r =>
    if height l - height r > 1 then
      match l with
      | .node ll _ lr =>
        if height lr ≤ height ll then right_rotate (.node l x r)
        else right_rotate (.node (left_rotate l) x r)
      | .nil => .node l x r
    else if height r - height l > 1 then
      match r with
      | .node rl _ rr =>
        if height rl ≤ height rr then left_rotate (.node l x r)
        else left_rotate (.node l x (right_rotate r))
      | .nil => .node l x r
    else .node l x r

/-- Embeds `AvlTree.add`: `_BNode.add` descends comparing the new element with the
stored one — strictly negative routes left, any other result (ties included)
routes right — and hangs the new leaf on the first absent child;
`_BNode.balance`, called on the new leaf, then applies `balance_step` to
every node on the path from that leaf back to the (possibly new) root,
bottom-up.  The embedding fuses the descent and the climb into one
structural recursion.  After a rotation the source re-runs the balance check
on the subtree's new root before moving up; `balance_step_idem_of_add`
below proves that this re-check never rotates again on any tree `add`
produces, so the embedding performs one check per visited node.  An empty
tree just receives the new leaf as root (no balance call in the source). -/
def add (comparator : α → α → Int) (x : α) : AvlTree α → AvlTree α
  | .nil => .node .nil x .nil
  | .node l v r =>
    if comparator x v < 0 then balance_step (.node (add comparator x l) v r)
    else balance_step (.node l v (add comparator x r))

/-- Repeated `AvlTree.add` of a list of elements into an initially empty
tree (`AvlTree` created without a seed element). -/
def ofList (comparator : α → α → Int) (xs : List α) : AvlTree α :=
  xs.foldl (fun t x => add comparator x t) .nil

/-- Embeds `_BNode.search` (and `AvlTree.search`, whose absent root returns `None`):
a zero predicate value stops at the stored element, a negative value descends
into the right child, a positive one into the left child; an absent child
ends the search with `None` (`search nil = none` covers the source's final
`else` branch for an absent child). -/
def search (comparator : α → Int) : AvlTree α → Option α
  | .nil => none
  | .node l v r =>
    if comparator v = 0 then some v
    else if comparator v < 0 then search comparator r
    else search comparator l

/-- The AVL shape invariant: at every node the heights of the two subtrees
differ by at most one (absent child counting as height `-1`). -/
def balancedB : AvlTree α → Bool
  | .nil => true
  | .node l _ r =>
    (height l - height r).natAbs ≤ 1 && balancedB l && balancedB r

/-- The contract of a caller-supplied total three-way comparator (negative,
zero or positive according to the relative weight of the arguments): the
comparison of `a` with `b` has the opposite sign of the comparison of `b`
with `a`, and the induced weak order `comparator a b ≤ 0` is transitive. -/
structure TotalCmp (comparator : α → α → Int) : Prop where
  sign_swap : ∀ a b, comparator a b < 0 ↔ 0 < comparator b a
  weak_trans : ∀ a b c, comparator a b ≤ 0 → comparator b c ≤ 0 → comparator a c ≤ 0

/-- The binary-search-tree invariant `add` maintains: at every node, elements
of the left subtree compare `≤ 0` against the node's element and elements of
the right subtree compare `≥ 0`.  (The left bound is weak: equal elements are
inserted to the right, but a rotation can move an element to the left of an
equal one.) -/
def Ordered (comparator : α → α → Int) : AvlTree α → Prop
  | .nil => True
  | .node l v r => Ordered comparator l ∧ Ordered comparator r ∧
      (∀ a ∈ toList l, comparator a v ≤ 0) ∧ (∀ b ∈ toList r, 0 ≤ comparator b v)

end AvlTree

/-! ### Errors and the error store (`error.py`, `errorstore.py`) -/

/-- Embeds `ErrorPosition` of `errorstore.py`: a `(line, char)` pair. -/
abbrev ErrorPosition := Int × Int

/-- Embeds `GrammalecteError` (`error.py`): an error found in the document.  The
embedding keeps the start and end positions stored by `__init__` and the
payload fields the constructor reads unconditionally (`sType`,
`aSuggestions`); the remaining payload — rule, message, URL and context,
read with `.get` defaults and a translated fallback — is opaque to indexing
and search and is elided.  `end` is a Lean keyword, hence the field name
`end_`. -/
structure GrammalecteError where
  start : ErrorPosition
  end_ : ErrorPosition
  option : String
  suggestions : List String
deriving DecidableEq, Repr

/-- The entries of the analyzer result dictionary (`_GrammalecteResultEntry`)
that `GrammalecteError.__init__` reads unconditionally: 1-based start and end
lines `nStartY`/`nEndY`, character offsets `nStartX`/`nEndX`, the error type
`sType` and the suggestion list `aSuggestions`. -/
structure AnalyzerEntry where
  nStartY : Int
  nStartX : Int
  nEndY : Int
  nEndX : Int
  sType : String
  aSuggestions : List String
deriving DecidableEq, Repr

/-- Embeds `GrammalecteError.__init__`: build the error from an analyzer result,
`start = (nStartY − 1, nStartX)` and `end = (nEndY − 1, nEndX)`. -/
def GrammalecteError.ofAnalyzer (analyzerFormat : AnalyzerEntry) : GrammalecteError where
  start := (analyzerFormat.nStartY - 1, analyzerFormat.nStartX)
  end_ := (analyzerFormat.nEndY - 1, analyzerFormat.nEndX)
  option := analyzerFormat.sType
  suggestions := analyzerFormat.aSuggestions

/-- The span-matching condition of `GrammalecteErrorStore.__searchComp`, its
four rules verbatim: the query line strictly between the start and end
lines; on the start line of a multi-line span at or after the start offset;
on the end line of a multi-line span at or before the end offset; or within
a single-line span, both offset boundaries inclusive. -/
def GrammalecteError.inSpan (error : GrammalecteError) (position : ErrorPosition) : Prop :=
  (error.start.1 < position.1 ∧ position.1 < error.end_.1) ∨
    (error.start.1 ≠ error.end_.1 ∧ error.start.1 = position.1 ∧
      error.start.2 ≤ position.2) ∨
    (error.start.1 ≠ error.end_.1 ∧ position.1 = error.end_.1 ∧
      position.2 ≤ error.end_.2) ∨
    (error.start.1 = error.end_.1 ∧ error.start.1 = position.1 ∧
      error.start.2 ≤ position.2 ∧ position.2 ≤ error.end_.2)

instance (error : GrammalecteError) (position : ErrorPosition) :
    Decidable (error.inSpan position) := by
  unfold GrammalecteError.inSpan
  exact inferInstance

/-- Embeds `GrammalecteErrorStore.__compare`: errors are ordered by start line
difference, then by start offset difference on the same line. -/
def GrammalecteErrorStore.compare (lerror rerror : GrammalecteError) : Int :=
  let diff := lerror.start.1 - rerror.start.1
  if diff ≠ 0 then diff else lerror.start.2 - rerror.start.2

/-- Embeds `GrammalecteErrorStore.__searchComp`: zero when the query position falls
within the error's span, otherwise the difference between the error's start
line and the query line (or the start offset difference on the same line),
steering the tree search. -/
def GrammalecteErrorStore.searchComp (error : GrammalecteError)
    (position : ErrorPosition) : Int :=
  if error.inSpan position then 0
  else
    let diff := error.start.1 - position.1
    if diff ≠ 0 then diff else error.start.2 - position.2

/-- A `GrammalecteErrorStore` populated through `add`/`add_all`: an `AvlTree`
over `GrammalecteErrorStore.__compare` (the store class is the tree class,
specialized). -/
def GrammalecteErrorStore.ofList (errors : List GrammalecteError) :
    AvlTree GrammalecteError :=
  AvlTree.ofList GrammalecteErrorStore.compare errors

/-- Embeds `GrammalecteErrorStore.search` applied to a `(line, char)` tuple:
`AvlTree.search` with the span-aware predicate `__searchComp`. -/
def GrammalecteErrorStore.searchPos (store : AvlTree GrammalecteError)
    (position : ErrorPosition) : Option GrammalecteError :=
  AvlTree.search (fun e => GrammalecteErrorStore.searchComp e position) store

/-- Lexicographic order on `(line, offset)` positions (the data-model
invariant `start ≤ end` of a record and the bridge between the four
span-matching rules and interval membership). -/
def posLe (p q : ErrorPosition) : Prop :=
  p.1 < q.1 ∨ (p.1 = q.1 ∧ p.2 ≤ q.2)

instance (p q : ErrorPosition) : Decidable (posLe p q) := by
  unfold posLe
  exact inferInstance

/-- Strict lexicographic order on `(line, offset)` positions. -/
def posLt (p q : ErrorPosition) : Prop :=
  p.1 < q.1 ∨ (p.1 = q.1 ∧ p.2 < q.2)

instance (p q : ErrorPosition) : Decidable (posLt p q) := by
  unfold posLt
  exact inferInstance

/-- Two records' spans do not overlap: no position lies in both. -/
def SpanDisjoint (e1 e2 : GrammalecteError) : Prop :=
  ∀ position : ErrorPosition, ¬(e1.inSpan position ∧ e2.inSpan position)

/-! ### The analysis unit (`_SingleAnalyzer`, `analyzer.py`) -/

/-- Outcome of a Python computation: a returned value, the raised
`_IgnoredException`, or any other raised exception (the `code` separates
distinct faults). -/
inductive PyOutcome (α : Type) : Type where
  | ok : α → PyOutcome α
  | ignoredException : PyOutcome α
  | otherError : Nat → PyOutcome α
deriving DecidableEq, Repr

/-- Embeds `_SingleAnalyzer.__call_grammalecte`: raises `_IgnoredException` when the
requester's configuration is absent (`config is None`); otherwise the
analysis body runs — an opaque long-running computation represented by its
outcome `analysis` (the list of found errors, or whatever exception it
raises). -/
def call_grammalecte {κ : Type} (config : Option κ)
    (analysis : PyOutcome (List GrammalecteError)) :
    PyOutcome (List GrammalecteError) :=
  match config with
  | none => .ignoredException
  | some _ => analysis

/-- The scheduler-visible effects of one `_SingleAnalyzer.run`: the sequence
of `_terminate_request` calls it performs, each carrying `found_errors`
(`none` when the analysis did not finish correctly), and whether an
exception escaped `run` into the thread runtime (never into the
analyzer). -/
structure RunEffect where
  terminate_calls : List (Option (List GrammalecteError))
  escaped : Bool
deriving DecidableEq, Repr

/-- Embeds `_SingleAnalyzer.run`: `__call_grammalecte` under
`try … except _IgnoredException: pass … finally: _terminate_request(…)`.
`found_errors` starts as `None` and is assigned only when
`__call_grammalecte` returns normally; the `finally` clause reports
completion in every case; an exception other than `_IgnoredException`
propagates out of `run` after the `finally` clause ran. -/
def SingleAnalyzer.run {κ : Type} (config : Option κ)
    (analysis : PyOutcome (List GrammalecteError)) : RunEffect :=
  match call_grammalecte config analysis with
  | .ok found_errors => ⟨[some found_errors], false⟩
  | .ignoredException => ⟨[none], false⟩
  | .otherError _ => ⟨[none], true⟩

/-! ### The request scheduler (`GrammalecteAnalyzer`, `analyzer.py`) -/

/-- The events `GrammalecteAnalyzer` emits: `analyze-started` and
`analyze-finished`, each carrying the requester.  (The result payload of a
finished event is produced by the analysis unit and modeled by
`SingleAnalyzer.run`.) -/
inductive SchedEvent (ρ : Type) : Type where
  | started : ρ → SchedEvent ρ
  | finished : ρ → SchedEvent ρ
deriving DecidableEq, Repr

/-- Whether an event is a finished notification. -/
def SchedEvent.isFinished {ρ : Type} : SchedEvent ρ → Bool
  | .started _ => false
  | .finished _ => true

/-- The state of a `GrammalecteAnalyzer`: the pending FIFO queue `_queue`,
the capacity counter `_free_room`, the running analysis threads (implicit in
the source — the threads started and not yet terminated — kept as a list so
that possible completions can be stated), and the chronological log of
emitted events. -/
structure SchedState (ρ : Type) : Type where
  queue : List ρ
  free_room : Int
  running : List ρ
  log : List (SchedEvent ρ)
deriving DecidableEq, Repr

/-- Embeds `GrammalecteAnalyzer.__init__`: empty queue, `free_room` set to the
configured parallel count, nothing running, nothing emitted. -/
def SchedState.init (ρ : Type) (parallel_count : Int) : SchedState ρ :=
  ⟨[], parallel_count, [], []⟩

/-- Embeds `GrammalecteAnalyzer.__start_request`: when a thread slot is free and the
queue is non-empty, decrement `free_room`, pop the queue head, emit
`analyze-started` and start the thread; otherwise do nothing. -/
def SchedState.start_request {ρ : Type} (s : SchedState ρ) : SchedState ρ :=
  match s.queue with
  | [] => s
  | requester :: rest =>
    if 0 < s.free_room then
      { queue := rest
        free_room := s.free_room - 1
        running := requester :: s.running
        log := s.log ++ [.started requester] }
    else s

/-- Embeds `GrammalecteAnalyzer.add_request`: append the requester to the queue,
then attempt a dispatch. -/
def SchedState.add_request {ρ : Type} (requester : ρ) (s : SchedState ρ) :
    SchedState ρ :=
  SchedState.start_request { s with queue := s.queue ++ [requester] }

/-- Embeds `GrammalecteAnalyzer._terminate_request`, called by a finishing analysis
thread: increment `free_room`, emit `analyze-finished`, then attempt a
dispatch.  The finishing thread leaves the running set. -/
def SchedState.terminate_request {ρ : Type} [DecidableEq ρ] (requester : ρ)
    (s : SchedState ρ) : SchedState ρ :=
  SchedState.start_request
    { queue := s.queue
      free_room := s.free_room + 1
      running := s.running.erase requester
      log := s.log ++ [.finished requester] }

/-- One external stimulus to the scheduler: an admission by a caller, or the
completion of one running analysis thread. -/
inductive SchedAction (ρ : Type) : Type where
  | enqueue : ρ → SchedAction ρ
  | complete : ρ → SchedAction ρ
deriving DecidableEq, Repr

/-- One scheduler transition: an admission (always possible), or the
completion of a request that is actually running. -/
inductive SchedStep {ρ : Type} [DecidableEq ρ] : SchedState ρ → SchedState ρ → Prop where
  | add (requester : ρ) (s : SchedState ρ) :
      SchedStep s (SchedState.add_request requester s)
  | finish (requester : ρ) (s : SchedState ρ) (h : requester ∈ s.running) :
      SchedStep s (SchedState.terminate_request requester s)

/-- The scheduler states reachable from a fresh analyzer with the given
capacity by some interleaving of admissions and completions. -/
def SchedReachable {ρ : Type} [DecidableEq ρ] (parallel_count : Int)
    (s : SchedState ρ) : Prop :=
  Relation.ReflTransGen SchedStep (SchedState.init ρ parallel_count) s

/-- Run a sequence of scheduler actions from a state. -/
def schedExec {ρ : Type} [DecidableEq ρ] :
    List (SchedAction ρ) → SchedState ρ → SchedState ρ
  | [], s => s
  | .enqueue r :: rest, s => schedExec rest (SchedState.add_request r s)
  | .complete r :: rest, s => schedExec rest (SchedState.terminate_request r s)

/-- A sequence of actions is valid from a state when every completion is of
a then-running request. -/
def schedValid {ρ : Type} [DecidableEq ρ] :
    List (SchedAction ρ) → SchedState ρ → Bool
  | [], _ => true
  | .enqueue r :: rest, s => schedValid rest (SchedState.add_request r s)
  | .complete r :: rest, s =>
      s.running.contains r && schedValid rest (SchedState.terminate_request r s)

namespace AvlTree

variable {α : Type}

/-! ### Height and balance lemmas -/

theorem height_ge (t : AvlTree α) : -1 ≤ height t := by
  cases t with
  | nil => simp [height]
  | node l x r =>
    have hl := height_ge l
    simp only [height]
    omega

theorem balancedB_node {l r : AvlTree α} {x : α} :
    balancedB (.node l x r) = true ↔
      (height l - height r).natAbs ≤ 1 ∧ balancedB l = true ∧ balancedB r = true := by
  simp [balancedB, and_assoc]

/-- A node whose subtree heights differ by at most one is left unchanged by
the balance check. -/
theorem balance_step_of_diff_le (l r : AvlTree α) (x : α)
    (h : (height l - height r).natAbs ≤ 1) :
    balance_step (.node l x r) = .node l x r := by
  have h1 : ¬(height l - height r > 1) := by omega
  have h2 : ¬(height r - height l > 1) := by omega
  simp only [balance_step, if_neg h1, if_neg h2]

/-- The balance check at one node rebalances a node whose left subtree is two
levels taller than its right subtree, provided both subtrees are themselves
balanced; the rebalanced subtree's height is that of the old left subtree or
one more. -/
theorem balance_step_left_heavy (l r : AvlTree α) (x : α)
    (hbl : balancedB l = true) (hbr : balancedB r = true)
    (hd : height l = height r + 2) :
    balancedB (balance_step (.node l x r)) = true ∧
      (height (balance_step (.node l x r)) = height l ∨
        height (balance_step (.node l x r)) = height l + 1) := by
  have hrge := height_ge r
  obtain ⟨ll, lx, lr, rfl⟩ : ∃ ll lx lr, l = .node ll lx lr := by
    cases l with
    | nil => exfalso; simp only [height] at hd; omega
    | node a b c => exact ⟨a, b, c, rfl⟩
  obtain ⟨hdll, hbll, hblr⟩ := balancedB_node.mp hbl
  have hllge := height_ge ll
  have hlrge := height_ge lr
  simp only [height] at hd
  have hgt : height (AvlTree.node ll lx lr) - height r > 1 := by
    simp only [height]; omega
  simp only [balance_step]
  rw [if_pos hgt]
  by_cases hc : height lr ≤ height ll
  · rw [if_pos hc]
    simp only [right_rotate]
    refine ⟨balancedB_node.mpr ⟨?_, hbll, balancedB_node.mpr ⟨?_, hblr, hbr⟩⟩, ?_⟩ <;>
      first
      | omega
      | (simp only [height]; omega)
  · rw [if_neg hc]
    obtain ⟨lrl, lrx, lrr, rfl⟩ : ∃ a b c, lr = .node a b c := by
      cases lr with
      | nil => exfalso; simp only [height] at hc hd; omega
      | node a b c => exact ⟨a, b, c, rfl⟩
    obtain ⟨hdlr, hblrl, hblrr⟩ := balancedB_node.mp hblr
    have h1 := height_ge lrl
    have h2 := height_ge lrr
    simp only [height] at hd hc hdll
    simp only [left_rotate, right_rotate]
    refine ⟨balancedB_node.mpr ⟨?_, balancedB_node.mpr ⟨?_, hbll, hblrl⟩,
        balancedB_node.mpr ⟨?_, hblrr, hbr⟩⟩, ?_⟩ <;>
      first
      | omega
      | (simp only [height]; omega)

/-- Mirror image of `balance_step_left_heavy` for a right-heavy node. -/
theorem balance_step_right_heavy (l r : AvlTree α) (x : α)
    (hbl : balancedB l = true) (hbr : balancedB r = true)
    (hd : height r = height l + 2) :
    balancedB (balance_step (.node l x r)) = true ∧
      (height (balance_step (.node l x r)) = height r ∨
        height (balance_step (.node l x r)) = height r + 1) := by
  have hlge := height_ge l
  obtain ⟨rl, rx, rr, rfl⟩ : ∃ a b c, r = .node a b c := by
    cases r with
    | nil => exfalso; simp only [height] at hd; omega
    | node a b c => exact ⟨a, b, c, rfl⟩
  obtain ⟨hdrr, hbrl, hbrr⟩ := balancedB_node.mp hbr
  have hrlge := height_ge rl
  have hrrge := height_ge rr
  simp only [height] at hd
  have hngt : ¬(height l - height (AvlTree.node rl rx rr) > 1) := by
    simp only [height]; omega
  have hgt : height (AvlTree.node rl rx rr) - height l > 1 := by
    simp only [height]; omega
  simp only [balance_step]
  rw [if_neg hngt, if_pos hgt]
  by_cases hc : height rl ≤ height rr
  · rw [if_pos hc]
    simp only [left_rotate]
    refine ⟨balancedB_node.mpr ⟨?_, balancedB_node.mpr ⟨?_, hbl, hbrl⟩, hbrr⟩, ?_⟩ <;>
      first
      | omega
      | (simp only [height]; omega)
  · rw [if_neg hc]
    obtain ⟨rll, rlx, rlr, rfl⟩ : ∃ a b c, rl = .node a b c := by
      cases rl with
      | nil => exfalso; simp only [height] at hc hd; omega
      | node a b c => exact ⟨a, b, c, rfl⟩
    obtain ⟨hdrl, hbrll, hbrlr⟩ := balancedB_node.mp hbrl
    have h1 := height_ge rll
    have h2 := height_ge rlr
    simp only [height] at hd hc hdrr
    simp only [right_rotate, left_rotate]
    refine ⟨balancedB_node.mpr ⟨?_, balancedB_node.mpr ⟨?_, hbl, hbrll⟩,
        balancedB_node.mpr ⟨?_, hbrlr, hbrr⟩⟩, ?_⟩ <;>
      first
      | omega
      | (simp only [height]; omega)

/-- The balance check leaves a balanced tree unchanged. -/
theorem balance_step_of_balancedB (t : AvlTree α) (h : balancedB t = true) :
    balance_step t = t := by
  cases t with
  | nil => rfl
  | node l x r => exact balance_step_of_diff_le l r x (balancedB_node.mp h).1

/-- Lemma: `_BNode.balance` re-runs its check on a subtree's new root right after a
rotation.  On every node the insertion path produces — both subtrees balanced
and the height difference at most two — that re-check performs no further
rotation, which justifies fusing the source's climb into one `balance_step`
per visited node in `add`. -/
theorem balance_step_idem_of_add (l r : AvlTree α) (x : α)
    (hbl : balancedB l = true) (hbr : balancedB r = true)
    (hd : (height l - height r).natAbs ≤ 2) :
    balance_step (balance_step (.node l x r)) = balance_step (.node l x r) := by
  rcases Nat.lt_or_ge (height l - height r).natAbs 2 with h2 | h2
  · rw [balance_step_of_diff_le l r x (by omega), balance_step_of_diff_le l r x (by omega)]
  · have h2 : (height l - height r).natAbs = 2 := le_antisymm hd h2
    rcases Int.le_or_lt (height l) (height r) with hle | hlt
    · exact balance_step_of_balancedB _
        (balance_step_right_heavy l r x hbl hbr (by omega)).1
    · exact balance_step_of_balancedB _
        (balance_step_left_heavy l r x hbl hbr (by omega)).1

/-- One `AvlTree.add` preserves the AVL balance invariant and grows the
tree's height by zero or one. -/
theorem add_balanced (comparator : α → α → Int) (x : α) (t : AvlTree α)
    (hb : balancedB t = true) :
    balancedB (add comparator x t) = true ∧
      (height (add comparator x t) = height t ∨
        height (add comparator x t) = height t + 1) := by
  induction t with
  | nil => exact ⟨rfl, by simp [add, height]⟩
  | node l v r ihl ihr =>
    obtain ⟨hd, hbl, hbr⟩ := balancedB_node.mp hb
    have hlge := height_ge l
    have hrge := height_ge r
    simp only [add]
    by_cases hcmp : comparator x v < 0
    · rw [if_pos hcmp]
      obtain ⟨hbl', hh⟩ := ihl hbl
      by_cases hcase : height (add comparator x l) = height r + 2
      · have hmain := balance_step_left_heavy (add comparator x l) r v hbl' hbr hcase
        refine ⟨hmain.1, ?_⟩
        have h2 := hmain.2
        simp only [height]
        omega
      · have hd' : (height (add comparator x l) - height r).natAbs ≤ 1 := by omega
        rw [balance_step_of_diff_le _ _ _ hd']
        refine ⟨balancedB_node.mpr ⟨hd', hbl', hbr⟩, ?_⟩
        simp only [height]
        omega
    · rw [if_neg hcmp]
      obtain ⟨hbr', hh⟩ := ihr hbr
      by_cases hcase : height (add comparator x r) = height l + 2
      · have hmain := balance_step_right_heavy l (add comparator x r) v hbl hbr' hcase
        refine ⟨hmain.1, ?_⟩
        have h2 := hmain.2
        simp only [height]
        omega
      · have hd' : (height l - height (add comparator x r)).natAbs ≤ 1 := by omega
        rw [balance_step_of_diff_le _ _ _ hd']
        refine ⟨balancedB_node.mpr ⟨hd', hbl, hbr'⟩, ?_⟩
        simp only [height]
        omega

theorem ofList_balanced (comparator : α → α → Int) (xs : List α) :
    balancedB (ofList comparator xs) = true := by
  suffices h : ∀ t : AvlTree α, balancedB t = true →
      balancedB (xs.foldl (fun t x => add comparator x t) t) = true from h .nil rfl
  induction xs with
  | nil => intro t h; simpa using h
  | cons y ys ih =>
    intro t h
    exact ih _ (add_balanced comparator y t h).1

/-! ### Iteration order and the binary-search-tree invariant -/

theorem toList_left_rotate (t : AvlTree α) : toList (left_rotate t) = toList t := by
  match t with
  | .nil => rfl
  | .node l x .nil => rfl
  | .node l x (.node rl rx rr) => simp [left_rotate, toList]

theorem toList_right_rotate (t : AvlTree α) : toList (right_rotate t) = toList t := by
  match t with
  | .nil => rfl
  | .node .nil x r => rfl
  | .node (.node ll lx lr) x r => simp [right_rotate, toList]

theorem toList_balance_step (t : AvlTree α) : toList (balance_step t) = toList t := by
  match t with
  | .nil => rfl
  | .node l x r =>
    cases l <;> cases r <;> simp only [balance_step] <;> split_ifs <;>
      simp [toList, toList_left_rotate, toList_right_rotate]

theorem toList_add_perm (comparator : α → α → Int) (x : α) (t : AvlTree α) :
    (toList (add comparator x t)).Perm (x :: toList t) := by
  induction t with
  | nil => simp [add, toList]
  | node l v r ihl ihr =>
    simp only [add]
    by_cases h : comparator x v < 0
    · rw [if_pos h, toList_balance_step]
      simp only [toList]
      exact ihl.append_right (v :: toList r)
    · rw [if_neg h, toList_balance_step]
      simp only [toList]
      refine ((ihr.cons v).append_left (toList l)).trans ?_
      have heq : toList l ++ v :: x :: toList r = (toList l ++ [v]) ++ x :: toList r := by
        simp
      rw [heq]
      refine List.perm_middle.trans ?_
      simp

theorem toList_ofList_perm (comparator : α → α → Int) (xs : List α) :
    (toList (ofList comparator xs)).Perm xs := by
  suffices h : ∀ t : AvlTree α,
      (toList (xs.foldl (fun t x => add comparator x t) t)).Perm (xs ++ toList t) by
    simpa [toList] using h .nil
  induction xs with
  | nil => intro t; simp
  | cons y ys ih =>
    intro t
    refine (ih _).trans ?_
    refine ((toList_add_perm comparator y t).append_left ys).trans ?_
    exact List.perm_middle

theorem size_eq_length_toList (t : AvlTree α) : size t = (toList t).length := by
  induction t with
  | nil => rfl
  | node l x r ihl ihr => simp [size, toList, ihl, ihr]; omega

theorem mem_toList_node {a : α} {l r : AvlTree α} {v : α} :
    a ∈ toList (.node l v r) ↔ a ∈ toList l ∨ a = v ∨ a ∈ toList r := by
  simp [toList]

theorem TotalCmp.nonpos_swap {comparator : α → α → Int} (h : TotalCmp comparator)
    {a b : α} (hab : 0 ≤ comparator a b) : comparator b a ≤ 0 := by
  by_contra hc
  push_neg at hc
  have := (h.sign_swap a b).mpr hc
  omega

/-- A weak-order cycle through one strict comparison is impossible. -/
theorem TotalCmp.no_cycle {comparator : α → α → Int} (h : TotalCmp comparator)
    {a b c : α} (h1 : comparator a b < 0) (h2 : comparator b c ≤ 0)
    (h3 : comparator c a ≤ 0) : False := by
  have hba := h.weak_trans b c a h2 h3
  have := (h.sign_swap a b).mp h1
  omega

theorem ordered_left_rotate {comparator : α → α → Int} (h : TotalCmp comparator)
    {t : AvlTree α} (ho : Ordered comparator t) :
    Ordered comparator (left_rotate t) := by
  match t with
  | .nil => exact ho
  | .node l x .nil => exact ho
  | .node l x (.node rl rx rr) =>
    obtain ⟨hol, ⟨horl, horr, hrl, hrr⟩, hleft, hright⟩ := ho
    have hrxx : 0 ≤ comparator rx x := hright rx (mem_toList_node.mpr (Or.inr (Or.inl rfl)))
    refine ⟨⟨hol, horl, hleft, ?_⟩, horr, ?_, hrr⟩
    · intro b hb
      exact hright b (mem_toList_node.mpr (Or.inl hb))
    · intro a ha
      rcases mem_toList_node.mp ha with h1 | h1 | h1
      · by_contra hc
        push_neg at hc
        have hra : comparator rx a < 0 := (h.sign_swap rx a).mpr hc
        exact h.no_cycle hra (hleft a h1) (h.nonpos_swap hrxx)
      · subst h1
        exact h.nonpos_swap hrxx
      · exact hrl a h1

theorem ordered_right_rotate {comparator : α → α → Int} (h : TotalCmp comparator)
    {t : AvlTree α} (ho : Ordered comparator t) :
    Ordered comparator (right_rotate t) := by
  match t with
  | .nil => exact ho
  | .node .nil x r => exact ho
  | .node (.node ll lx lr) x r =>
    obtain ⟨⟨holl, holr, hll, hlr⟩, hor, hleft, hright⟩ := ho
    have hlxx : comparator lx x ≤ 0 := hleft lx (mem_toList_node.mpr (Or.inr (Or.inl rfl)))
    refine ⟨holl, ⟨holr, hor, ?_, hright⟩, hll, ?_⟩
    · intro a ha
      exact hleft a (mem_toList_node.mpr (Or.inr (Or.inr ha)))
    · intro b hb
      rcases mem_toList_node.mp hb with h1 | h1 | h1
      · exact hlr b h1
      · subst h1
        by_contra hc
        push_neg at hc
        have := (h.sign_swap b lx).mp hc
        omega
      · by_contra hc
        push_neg at hc
        have hbl : comparator b lx < 0 := by
          rcases Int.lt_or_lt_of_ne (fun he => by omega : comparator b lx ≠ 0) with h' | h'
          · exact h'
          · omega
        exact h.no_cycle hbl hlxx (h.nonpos_swap (hright b h1))

/-- Lemma: `balance_step` returns the node unchanged or one of the four rotation
results of the source's balance cases. -/
theorem balance_step_cases (l : AvlTree α) (x : α) (r : AvlTree α) :
    balance_step (.node l x r) = .node l x r ∨
    balance_step (.node l x r) = right_rotate (.node l x r) ∨
    balance_step (.node l x r) = right_rotate (.node (left_rotate l) x r) ∨
    balance_step (.node l x r) = left_rotate (.node l x r) ∨
    balance_step (.node l x r) = left_rotate (.node l x (right_rotate r)) := by
  cases l <;> cases r <;> simp only [balance_step] <;> split_ifs <;> simp

theorem ordered_balance_step {comparator : α → α → Int} (h : TotalCmp comparator)
    (t : AvlTree α) (ho : Ordered comparator t) :
    Ordered comparator (balance_step t) := by
  match t with
  | .nil => exact ho
  | .node l x r =>
    obtain ⟨hol, hor, hleft, hright⟩ := ho
    have hld : Ordered comparator (.node (left_rotate l) x r) :=
      ⟨ordered_left_rotate h hol, hor, by rw [toList_left_rotate]; exact hleft, hright⟩
    have hrd : Ordered comparator (.node l x (right_rotate r)) :=
      ⟨hol, ordered_right_rotate h hor, hleft, by rw [toList_right_rotate]; exact hright⟩
    rcases balance_step_cases l x r with hc | hc | hc | hc | hc <;> rw [hc]
    · exact ⟨hol, hor, hleft, hright⟩
    · exact ordered_right_rotate h ⟨hol, hor, hleft, hright⟩
    · exact ordered_right_rotate h hld
    · exact ordered_left_rotate h ⟨hol, hor, hleft, hright⟩
    · exact ordered_left_rotate h hrd

theorem ordered_add {comparator : α → α → Int} (h : TotalCmp comparator) (x : α)
    (t : AvlTree α) (ho : Ordered comparator t) :
    Ordered comparator (add comparator x t) := by
  induction t with
  | nil => exact ⟨trivial, trivial, by simp [toList], by simp [toList]⟩
  | node l v r ihl ihr =>
    obtain ⟨hol, hor, hleft, hright⟩ := ho
    simp only [add]
    by_cases hc : comparator x v < 0
    · rw [if_pos hc]
      refine ordered_balance_step h _ ⟨ihl hol, hor, ?_, hright⟩
      intro a ha
      rcases List.mem_cons.mp ((toList_add_perm comparator x l).mem_iff.mp ha) with rfl | ha'
      · exact le_of_lt hc
      · exact hleft a ha'
    · rw [if_neg hc]
      refine ordered_balance_step h _ ⟨hol, ihr hor, hleft, ?_⟩
      intro b hb
      rcases List.mem_cons.mp ((toList_add_perm comparator x r).mem_iff.mp hb) with rfl | hb'
      · omega
      · exact hright b hb'

theorem ordered_ofList {comparator : α → α → Int} (h : TotalCmp comparator)
    (xs : List α) : Ordered comparator (ofList comparator xs) := by
  suffices hs : ∀ t : AvlTree α, Ordered comparator t →
      Ordered comparator (xs.foldl (fun t x => add comparator x t) t) from hs .nil trivial
  induction xs with
  | nil => intro t ht; simpa using ht
  | cons y ys ih => intro t ht; exact ih _ (ordered_add h y t ht)

/-- The in-order traversal of a tree satisfying the search invariant is
weakly sorted by the comparator. -/
theorem pairwise_toList_of_ordered {comparator : α → α → Int} (h : TotalCmp comparator)
    (t : AvlTree α) (ho : Ordered comparator t) :
    (toList t).Pairwise (fun a b => comparator a b ≤ 0) := by
  induction t with
  | nil => simp [toList]
  | node l v r ihl ihr =>
    obtain ⟨hol, hor, hleft, hright⟩ := ho
    simp only [toList]
    rw [List.pairwise_append]
    refine ⟨ihl hol, List.pairwise_cons.mpr ⟨fun b hb => h.nonpos_swap (hright b hb), ihr hor⟩, ?_⟩
    intro a ha b hb
    rcases List.mem_cons.mp hb with rfl | hb'
    · exact hleft a ha
    · by_contra hc
      push_neg at hc
      have hba : comparator b a < 0 := (h.sign_swap b a).mpr hc
      exact h.no_cycle hba (hleft a ha) (h.nonpos_swap (hright b hb'))

/-! ### Search lemmas -/

theorem search_sound (f : α → Int) (t : AvlTree α) (e : α)
    (hs : search f t = some e) : e ∈ toList t ∧ f e = 0 := by
  induction t with
  | nil => simp [search] at hs
  | node l v r ihl ihr =>
    simp only [search] at hs
    split_ifs at hs with h1 h2
    · cases hs
      exact ⟨mem_toList_node.mpr (Or.inr (Or.inl rfl)), h1⟩
    · obtain ⟨hm, hz⟩ := ihr hs
      exact ⟨mem_toList_node.mpr (Or.inr (Or.inr hm)), hz⟩
    · obtain ⟨hm, hz⟩ := ihl hs
      exact ⟨mem_toList_node.mpr (Or.inl hm), hz⟩

/-- Completeness of `search` over an `Ordered` tree: if the predicate is
compatible with the tree order — every matching element compares strictly
below any element the predicate sends left, and strictly above any element
the predicate sends right — then the search finds a matching element as soon
as one exists. -/
theorem search_complete (comparator : α → α → Int) (f : α → Int) (t : AvlTree α) :
    Ordered comparator t →
    (∀ v ∈ toList t, ∀ e ∈ toList t, 0 < f v → f e = 0 → comparator e v < 0) →
    (∀ v ∈ toList t, ∀ e ∈ toList t, f v < 0 → f e = 0 → 0 < comparator e v) →
    (∃ e ∈ toList t, f e = 0) →
    ∃ e, search f t = some e ∧ f e = 0 := by
  induction t with
  | nil => intro _ _ _ hex; simp [toList] at hex
  | node l v r ihl ihr =>
    intro ho hlw hrw hex
    obtain ⟨hol, hor, hlb, hrb⟩ := ho
    obtain ⟨e0, he0m, he0z⟩ := hex
    simp only [search]
    by_cases h1 : f v = 0
    · rw [if_pos h1]
      exact ⟨v, rfl, h1⟩
    · rw [if_neg h1]
      by_cases h2 : f v < 0
      · rw [if_pos h2]
        have he0r : e0 ∈ toList r := by
          rcases mem_toList_node.mp he0m with hm | hm | hm
          · exfalso
            have hpos := hrw v (mem_toList_node.mpr (Or.inr (Or.inl rfl))) e0 he0m h2 he0z
            have := hlb e0 hm
            omega
          · subst hm
            exact absurd he0z h1
          · exact hm
        exact ihr hor
          (fun v' hv' e' he' => hlw v' (mem_toList_node.mpr (Or.inr (Or.inr hv')))
            e' (mem_toList_node.mpr (Or.inr (Or.inr he'))))
          (fun v' hv' e' he' => hrw v' (mem_toList_node.mpr (Or.inr (Or.inr hv')))
            e' (mem_toList_node.mpr (Or.inr (Or.inr he'))))
          ⟨e0, he0r, he0z⟩
      · rw [if_neg h2]
        have he0l : e0 ∈ toList l := by
          rcases mem_toList_node.mp he0m with hm | hm | hm
          · exact hm
          · subst hm
            exact absurd he0z h1
          · exfalso
            have hneg := hlw v (mem_toList_node.mpr (Or.inr (Or.inl rfl))) e0 he0m
              (by omega) he0z
            have := hrb e0 hm
            omega
        exact ihl hol
          (fun v' hv' e' he' => hlw v' (mem_toList_node.mpr (Or.inl hv'))
            e' (mem_toList_node.mpr (Or.inl he')))
          (fun v' hv' e' he' => hrw v' (mem_toList_node.mpr (Or.inl hv'))
            e' (mem_toList_node.mpr (Or.inl he')))
          ⟨e0, he0l, he0z⟩

end AvlTree

/-! ### Error-store lemmas -/

theorem totalCmp_store_compare : AvlTree.TotalCmp GrammalecteErrorStore.compare := by
  constructor
  · intro a b
    simp only [GrammalecteErrorStore.compare]
    split_ifs <;> omega
  · intro a b c h1 h2
    simp only [GrammalecteErrorStore.compare] at h1 h2 ⊢
    split_ifs at h1 h2 ⊢ <;> omega

theorem compare_neg_iff (a b : GrammalecteError) :
    GrammalecteErrorStore.compare a b < 0 ↔ posLt a.start b.start := by
  simp only [GrammalecteErrorStore.compare, posLt]
  split_ifs <;> omega

theorem compare_nonpos_iff (a b : GrammalecteError) :
    GrammalecteErrorStore.compare a b ≤ 0 ↔ posLe a.start b.start := by
  simp only [GrammalecteErrorStore.compare, posLe]
  split_ifs <;> omega

/-- Under the data-model invariant `start ≤ end`, the four span-matching
rules say exactly that the query position lies between the record's start
and end in lexicographic order. -/
theorem inSpan_iff_between (e : GrammalecteError) (p : ErrorPosition)
    (hwf : posLe e.start e.end_) :
    e.inSpan p ↔ posLe e.start p ∧ posLe p e.end_ := by
  simp only [GrammalecteError.inSpan, posLe] at *
  omega

theorem searchComp_of_inSpan {e : GrammalecteError} {p : ErrorPosition}
    (h : e.inSpan p) : GrammalecteErrorStore.searchComp e p = 0 := by
  simp only [GrammalecteErrorStore.searchComp, if_pos h]

theorem searchComp_zero {e : GrammalecteError} {p : ErrorPosition}
    (hwf : posLe e.start e.end_)
    (h : GrammalecteErrorStore.searchComp e p = 0) : e.inSpan p := by
  simp only [GrammalecteErrorStore.searchComp] at h
  split_ifs at h with hin hd
  · exact hin
  · omega
  · exfalso
    apply hin
    simp only [GrammalecteError.inSpan]
    simp only [posLe] at hwf
    omega

theorem searchComp_pos {e : GrammalecteError} {p : ErrorPosition}
    (h : 0 < GrammalecteErrorStore.searchComp e p) :
    ¬ e.inSpan p ∧ posLt p e.start := by
  simp only [GrammalecteErrorStore.searchComp] at h
  split_ifs at h with hin hd
  · omega
  · exact ⟨hin, by simp only [posLt]; omega⟩
  · exact ⟨hin, by simp only [posLt]; omega⟩

theorem searchComp_neg {e : GrammalecteError} {p : ErrorPosition}
    (h : GrammalecteErrorStore.searchComp e p < 0) :
    ¬ e.inSpan p ∧ posLt e.start p := by
  simp only [GrammalecteErrorStore.searchComp] at h
  split_ifs at h with hin hd
  · omega
  · exact ⟨hin, by simp only [posLt]; omega⟩
  · exact ⟨hin, by simp only [posLt]; omega⟩

/-! ### Scheduler lemmas -/

/-- Effect of one dispatch attempt on the capacity accounting: starting from
a state whose counter is non-negative and accounts for the running threads,
`__start_request` preserves both and — provided a free slot implies at most
one waiting request, or at most one free slot — ends with no free slot while
requests wait. -/
theorem start_request_inv {ρ : Type} (cap : Int) (u : SchedState ρ)
    (h0 : 0 ≤ u.free_room)
    (hsum : u.free_room + u.running.length = cap)
    (hq : 0 < u.free_room → u.queue.length ≤ 1 ∨ u.free_room ≤ 1) :
    0 ≤ u.start_request.free_room ∧
      u.start_request.free_room + u.start_request.running.length = cap ∧
      (0 < u.start_request.free_room → u.start_request.queue = []) := by
  rcases hu : u.queue with _ | ⟨r, rest⟩
  · simp only [SchedState.start_request, hu]
    exact ⟨h0, hsum, fun _ => trivial⟩
  · simp only [SchedState.start_request, hu]
    by_cases hf : 0 < u.free_room
    · rw [if_pos hf]
      dsimp only
      refine ⟨by omega, by simp only [List.length_cons]; push_cast; omega, ?_⟩
      intro hpos
      rcases hq hf with hlen | hle
      · rw [hu] at hlen
        simp only [List.length_cons] at hlen
        have : rest.length = 0 := by omega
        exact List.length_eq_zero.mp this
      · omega
    · rw [if_neg hf]
      exact ⟨h0, hsum, fun hpos => absurd hpos hf⟩

/-- The inductive scheduler invariant: every reachable state has a
non-negative capacity counter accounting exactly for the running threads,
and never a free slot while the queue is non-empty. -/
theorem sched_reachable_inv {ρ : Type} [DecidableEq ρ] (cap : Int) (hcap : 0 ≤ cap)
    (s : SchedState ρ) (hs : SchedReachable cap s) :
    0 ≤ s.free_room ∧ s.free_room + s.running.length = cap ∧
      (0 < s.free_room → s.queue = []) := by
  induction hs with
  | refl => exact ⟨hcap, by simp [SchedState.init], fun _ => rfl⟩
  | @tail u c hsteps hstep ih =>
    obtain ⟨ih0, ihsum, ihq⟩ := ih
    cases hstep with
    | add r =>
      simp only [SchedState.add_request]
      apply start_request_inv cap
      · exact ih0
      · exact ihsum
      · intro hf
        left
        dsimp only
        rw [ihq hf]
        simp
    | finish r u2 hr =>
      simp only [SchedState.terminate_request]
      apply start_request_inv cap
      · dsimp only
        omega
      · dsimp only
        rw [List.length_erase_of_mem hr]
        have hpos : 0 < u.running.length := List.length_pos.mpr (List.ne_nil_of_mem hr)
        push_cast [Int.ofNat_sub hpos]
        omega
      · intro _
        dsimp only
        by_cases hf : 0 < u.free_room
        · left
          rw [ihq hf]
          simp
        · right
          omega

/-! ## The claims -/

/-- C1. For every finite sequence of elements inserted with
`AvlTree.add` under any three-way comparator (in particular under any total
one), after each insertion — the tree built from each prefix of the
sequence is an instance of this statement — every node of the tree
satisfies |height(left subtree) − height(right subtree)| ≤ 1, where the
height of an absent child is −1. -/
theorem claim_avl_always_balanced {α : Type} (comparator : α → α → Int)
    (xs : List α) :
    AvlTree.balancedB (AvlTree.ofList comparator xs) = true :=
  AvlTree.ofList_balanced comparator xs

/-- C2. Under a total three-way comparator, iterating the tree built by
inserting a multiset of elements yields exactly the inserted elements — a
permutation, so elements comparing equal (comparator result 0, routed to
the right subtree by `_BNode.add`) are all retained as distinct entries,
never merged or dropped — in ascending comparator order, and the tree's
size equals the number of insertions. -/
theorem claim_avl_iteration {α : Type} (comparator : α → α → Int)
    (hc : AvlTree.TotalCmp comparator) (xs : List α) :
    (AvlTree.toList (AvlTree.ofList comparator xs)).Perm xs ∧
    (AvlTree.toList (AvlTree.ofList comparator xs)).Pairwise
      (fun a b => comparator a b ≤ 0) ∧
    AvlTree.size (AvlTree.ofList comparator xs) = xs.length := by
  refine ⟨AvlTree.toList_ofList_perm comparator xs,
    AvlTree.pairwise_toList_of_ordered hc _ (AvlTree.ordered_ofList hc xs), ?_⟩
  rw [AvlTree.size_eq_length_toList,
    (AvlTree.toList_ofList_perm comparator xs).length_eq]

/-- Witness for C2: the comparator `a − b` on `Int` is total, and inserting
`[2, 1, 2]` (with a duplicate) yields a sorted permutation of size 3. -/
theorem claim_avl_iteration_witness :
    AvlTree.TotalCmp (fun a b : Int => a - b) ∧
    ((AvlTree.toList (AvlTree.ofList (fun a b : Int => a - b) [2, 1, 2])).Perm
        [2, 1, 2] ∧
      (AvlTree.toList (AvlTree.ofList (fun a b : Int => a - b) [2, 1, 2])).Pairwise
        (fun a b => a - b ≤ 0) ∧
      AvlTree.size (AvlTree.ofList (fun a b : Int => a - b) [2, 1, 2]) = 3) :=
  ⟨⟨fun a b => by omega, fun a b c h1 h2 => by omega⟩,
    claim_avl_iteration (fun a b : Int => a - b)
      ⟨fun a b => by omega, fun a b c h1 h2 => by omega⟩ [2, 1, 2]⟩

/-- C4. `AvlTree.search` with a one-argument predicate descends from the
root: an absent tree (the `AvlTree` with no root, and likewise an absent
child reached by the descent) yields `none`; a node with predicate zero
stops the search at once, returning that node's element; a negative
predicate value continues the search in the right child only, a positive
one in the left child only; and any element returned is a stored element on
which the predicate is zero. -/
theorem claim_avl_search_descent {α : Type} (comparator : α → Int) :
    (AvlTree.search comparator (.nil : AvlTree α) = none) ∧
    (∀ (l r : AvlTree α) (v : α), comparator v = 0 →
      AvlTree.search comparator (.node l v r) = some v) ∧
    (∀ (l r : AvlTree α) (v : α), comparator v < 0 →
      AvlTree.search comparator (.node l v r) = AvlTree.search comparator r) ∧
    (∀ (l r : AvlTree α) (v : α), 0 < comparator v →
      AvlTree.search comparator (.node l v r) = AvlTree.search comparator l) ∧
    (∀ (t : AvlTree α) (e : α), AvlTree.search comparator t = some e →
      comparator e = 0 ∧ e ∈ AvlTree.toList t) := by
  refine ⟨rfl, ?_, ?_, ?_, ?_⟩
  · intro l r v hz
    simp only [AvlTree.search, if_pos hz]
  · intro l r v hneg
    simp only [AvlTree.search]
    rw [if_neg (by omega), if_pos hneg]
  · intro l r v hpos
    simp only [AvlTree.search]
    rw [if_neg (by omega), if_neg (by omega)]
  · intro t e hs
    obtain ⟨hm, hz⟩ := AvlTree.search_sound comparator t e hs
    exact ⟨hz, hm⟩

/-- Witness for C4: a negative predicate value at the root sends the search
to the right child, where it stops on the zero. -/
theorem claim_avl_search_descent_witness :
    ((3 : Int) - 7 < 0 ∧
      AvlTree.search (fun e : Int => e - 7)
          (.node (.node .nil 1 .nil) 3 (.node .nil 7 .nil)) =
        AvlTree.search (fun e : Int => e - 7) (.node .nil 7 .nil)) ∧
    AvlTree.search (fun e : Int => e - 7)
        (.node (.node .nil 1 .nil) 3 (.node .nil 7 .nil)) = some 7 :=
  ⟨⟨by decide,
      (claim_avl_search_descent (fun e : Int => e - 7)).2.2.1
        (.node .nil 1 .nil) (.node .nil 7 .nil) 3 (by decide)⟩,
    by decide⟩

/-- C8. Inserting 51, −12, 25, 69, −2, 2 in that order into an
`AvlTree` whose comparator is numeric difference yields a tree of size 6
and height 2 whose in-order iteration is [−12, −2, 2, 25, 51, 69]. -/
theorem claim_avl_concrete_case :
    AvlTree.size (AvlTree.ofList (fun a b : Int => a - b)
        [51, -12, 25, 69, -2, 2]) = 6 ∧
    AvlTree.height (AvlTree.ofList (fun a b : Int => a - b)
        [51, -12, 25, 69, -2, 2]) = 2 ∧
    AvlTree.toList (AvlTree.ofList (fun a b : Int => a - b)
        [51, -12, 25, 69, -2, 2]) = [-12, -2, 2, 25, 51, 69] := by
  decide

/-- C10. For every analyzer result dictionary, the `GrammalecteError`
constructor stores `start = (nStartY − 1, nStartX)` and
`end = (nEndY − 1, nEndX)`: line numbers are converted from the analyzer's
1-based convention to 0-based while character offsets are kept unchanged,
so every position indexed (`GrammalecteErrorStore.__compare`) and searched
(`__searchComp`) in the record store uses 0-based lines. -/
theorem claim_error_position_conversion (analyzerFormat : AnalyzerEntry) :
    (GrammalecteError.ofAnalyzer analyzerFormat).start =
        (analyzerFormat.nStartY - 1, analyzerFormat.nStartX) ∧
    (GrammalecteError.ofAnalyzer analyzerFormat).end_ =
        (analyzerFormat.nEndY - 1, analyzerFormat.nEndX) :=
  ⟨rfl, rfl⟩

/-- C3. For every store populated with records whose spans are
well-formed (`start ≤ end` lexicographically, the data-model invariant) and
pairwise non-overlapping, `GrammalecteErrorStore.search((line, offset))`
returns a record exactly when the query point lies in that record's span
under the four match rules (`GrammalecteError.inSpan`); in particular a
query point lying in no record's span — such as a point in the gap between
two non-overlapping records — returns `none`, never the nearest record. -/
theorem claim_store_search (errors : List GrammalecteError)
    (hwf : ∀ e ∈ errors, posLe e.start e.end_)
    (hdisj : errors.Pairwise SpanDisjoint) (position : ErrorPosition) :
    (∀ e, GrammalecteErrorStore.searchPos (GrammalecteErrorStore.ofList errors)
        position = some e → e ∈ errors ∧ e.inSpan position) ∧
    (∀ e0 ∈ errors, e0.inSpan position →
      GrammalecteErrorStore.searchPos (GrammalecteErrorStore.ofList errors)
        position = some e0) ∧
    ((∀ e ∈ errors, ¬ e.inSpan position) →
      GrammalecteErrorStore.searchPos (GrammalecteErrorStore.ofList errors)
        position = none) := by
  have hcmp := totalCmp_store_compare
  have hperm := AvlTree.toList_ofList_perm GrammalecteErrorStore.compare errors
  have hmem : ∀ e, e ∈ AvlTree.toList (GrammalecteErrorStore.ofList errors) ↔
      e ∈ errors := fun e => hperm.mem_iff
  have hsound : ∀ e, GrammalecteErrorStore.searchPos (GrammalecteErrorStore.ofList errors)
      position = some e → e ∈ errors ∧ e.inSpan position := by
    intro e hse
    obtain ⟨hm, hz⟩ := AvlTree.search_sound _ _ _ hse
    exact ⟨(hmem e).mp hm, searchComp_zero (hwf e ((hmem e).mp hm)) hz⟩
  have hlw : ∀ v ∈ AvlTree.toList (GrammalecteErrorStore.ofList errors),
      ∀ e ∈ AvlTree.toList (GrammalecteErrorStore.ofList errors),
      0 < GrammalecteErrorStore.searchComp v position →
      GrammalecteErrorStore.searchComp e position = 0 →
      GrammalecteErrorStore.compare e v < 0 := by
    intro v hv e he hpos hz
    obtain ⟨hnin, hlt⟩ := searchComp_pos hpos
    have hbetween := (inSpan_iff_between e position (hwf e ((hmem e).mp he))).mp
      (searchComp_zero (hwf e ((hmem e).mp he)) hz)
    rw [compare_neg_iff]
    simp only [posLe, posLt] at hbetween hlt ⊢
    omega
  have hrw : ∀ v ∈ AvlTree.toList (GrammalecteErrorStore.ofList errors),
      ∀ e ∈ AvlTree.toList (GrammalecteErrorStore.ofList errors),
      GrammalecteErrorStore.searchComp v position < 0 →
      GrammalecteErrorStore.searchComp e position = 0 →
      0 < GrammalecteErrorStore.compare e v := by
    intro v hv e he hneg hz
    obtain ⟨hninV, hltV⟩ := searchComp_neg hneg
    have hwfV := hwf v ((hmem v).mp hv)
    have hwfE := hwf e ((hmem e).mp he)
    have hbetween := (inSpan_iff_between e position hwfE).mp (searchComp_zero hwfE hz)
    by_contra hc
    push_neg at hc
    have hle : posLe e.start v.start := (compare_nonpos_iff e v).mp hc
    have hinEv : e.inSpan v.start := by
      rw [inSpan_iff_between e _ hwfE]
      refine ⟨hle, ?_⟩
      simp only [posLe, posLt] at hbetween hltV ⊢
      omega
    have hinVv : v.inSpan v.start := by
      rw [inSpan_iff_between v _ hwfV]
      refine ⟨?_, hwfV⟩
      simp [posLe]
    have hne : e ≠ v := by
      intro he'
      rw [he'] at hz
      omega
    have hsymm : Symmetric SpanDisjoint :=
      fun e1 e2 h12 pos hp => h12 pos ⟨hp.2, hp.1⟩
    have hdisj' : SpanDisjoint e v :=
      hdisj.forall hsymm ((hmem e).mp he) ((hmem v).mp hv) hne
    exact hdisj' v.start ⟨hinEv, hinVv⟩
  refine ⟨hsound, ?_, ?_⟩
  · intro e0 he0 hin0
    obtain ⟨e, hse, hz⟩ := AvlTree.search_complete
      GrammalecteErrorStore.compare
      (fun e => GrammalecteErrorStore.searchComp e position)
      (GrammalecteErrorStore.ofList errors)
      (AvlTree.ordered_ofList hcmp errors) hlw hrw
      ⟨e0, (hmem e0).mpr he0, searchComp_of_inSpan hin0⟩
    obtain ⟨heMem, heIn⟩ := hsound e hse
    have heq : e = e0 := by
      by_contra hne
      have hsymm : Symmetric SpanDisjoint :=
        fun e1 e2 h12 pos hp => h12 pos ⟨hp.2, hp.1⟩
      exact hdisj.forall hsymm heMem he0 hne position ⟨heIn, hin0⟩
    rw [heq] at hse
    exact hse
  · intro hnone
    rcases hres : GrammalecteErrorStore.searchPos (GrammalecteErrorStore.ofList errors)
        position with _ | e
    · rfl
    · exact absurd ((hsound e hres).2) (hnone e (hsound e hres).1)

/-- Witness for C3: two well-formed, non-overlapping records on line 0 —
spans [(0,0),(0,3)] and [(0,10),(1,2)] — and the gap point (0,5): the
search returns `none`. -/
theorem claim_store_search_witness :
    (∀ e ∈ ([⟨(0, 0), (0, 3), "g", []⟩, ⟨(0, 10), (1, 2), "g", []⟩] :
        List GrammalecteError), posLe e.start e.end_) ∧
    ([⟨(0, 0), (0, 3), "g", []⟩, ⟨(0, 10), (1, 2), "g", []⟩] :
        List GrammalecteError).Pairwise SpanDisjoint ∧
    GrammalecteErrorStore.searchPos
      (GrammalecteErrorStore.ofList
        [⟨(0, 0), (0, 3), "g", []⟩, ⟨(0, 10), (1, 2), "g", []⟩])
      (0, 5) = none := by
  have hwf : ∀ e ∈ ([⟨(0, 0), (0, 3), "g", []⟩, ⟨(0, 10), (1, 2), "g", []⟩] :
      List GrammalecteError), posLe e.start e.end_ := by decide
  have hdisj : ([⟨(0, 0), (0, 3), "g", []⟩, ⟨(0, 10), (1, 2), "g", []⟩] :
      List GrammalecteError).Pairwise SpanDisjoint := by
    refine List.pairwise_cons.mpr ⟨?_, List.pairwise_singleton _ _⟩
    intro e2 he2
    simp only [List.mem_singleton] at he2
    subst he2
    intro pos hp
    obtain ⟨a, b⟩ := pos
    revert hp
    simp only [GrammalecteError.inSpan]
    omega
  exact ⟨hwf, hdisj,
    (claim_store_search _ hwf hdisj (0, 5)).2.2 (by decide)⟩

/-- C5. Whatever the outcome of `__call_grammalecte` — a successful
analysis, a benign skip because the requester's configuration is absent
(`_IgnoredException`), or any other exception — `_SingleAnalyzer.run`
reports completion through `_terminate_request` exactly once, never zero
times and never more than once; in the skip and failure cases the single
report carries an absent result (`None`), and no error reaches the
analyzer: the skip is swallowed and any other exception leaves `run`
toward the thread runtime only after the completion report. -/
theorem claim_unit_completion {κ : Type} (config : Option κ)
    (analysis : PyOutcome (List GrammalecteError)) :
    (SingleAnalyzer.run config analysis).terminate_calls.length = 1 ∧
    (∀ errs, config ≠ none → analysis = .ok errs →
      (SingleAnalyzer.run config analysis).terminate_calls = [some errs] ∧
      (SingleAnalyzer.run config analysis).escaped = false) ∧
    (config = none →
      (SingleAnalyzer.run config analysis).terminate_calls = [none] ∧
      (SingleAnalyzer.run config analysis).escaped = false) ∧
    (∀ code, analysis = .otherError code →
      (SingleAnalyzer.run config analysis).terminate_calls = [none]) := by
  cases config <;> cases analysis <;>
    simp [SingleAnalyzer.run, call_grammalecte]

/-- Witness for C5: with an absent configuration and a faulty analysis
body, the unit still reports exactly once, with an absent result. -/
theorem claim_unit_completion_witness :
    (SingleAnalyzer.run (none : Option Nat) (.otherError 0)).terminate_calls.length = 1 ∧
    (SingleAnalyzer.run (none : Option Nat) (.otherError 0)).terminate_calls = [none] :=
  ⟨(claim_unit_completion none (.otherError 0)).1,
    ((claim_unit_completion (none : Option Nat) (.otherError 0)).2.2.1 rfl).1⟩

/-- C6. In every scheduler state reachable from a fresh analyzer with
non-negative capacity by any sequence of admissions (`add_request`) and
completions (`_terminate_request`), `free_room` stays within
`[0, capacity]`; and since every admission and every completion ends with a
dispatch (`__start_request`), no reachable state has a free slot while the
pending queue is non-empty — queued work is drained whenever capacity
allows. -/
theorem claim_sched_invariant {ρ : Type} [DecidableEq ρ] (parallel_count : Int)
    (hcap : 0 ≤ parallel_count) (s : SchedState ρ)
    (hs : SchedReachable parallel_count s) :
    (0 ≤ s.free_room ∧ s.free_room ≤ parallel_count) ∧
      ¬(0 < s.free_room ∧ s.queue ≠ []) := by
  obtain ⟨h0, hsum, hq⟩ := sched_reachable_inv parallel_count hcap s hs
  refine ⟨⟨h0, by omega⟩, ?_⟩
  rintro ⟨hf, hne⟩
  exact hne (hq hf)

/-- Witness for C6: the state after one admission into a fresh capacity-2
analyzer is reachable and satisfies the invariant. -/
theorem claim_sched_invariant_witness :
    (0 : Int) ≤ 2 ∧
    SchedReachable 2 (SchedState.add_request 0 (SchedState.init Nat 2)) ∧
    ((0 ≤ (SchedState.add_request 0 (SchedState.init Nat 2)).free_room ∧
        (SchedState.add_request 0 (SchedState.init Nat 2)).free_room ≤ 2) ∧
      ¬(0 < (SchedState.add_request 0 (SchedState.init Nat 2)).free_room ∧
        (SchedState.add_request 0 (SchedState.init Nat 2)).queue ≠ [])) :=
  ⟨by decide, Relation.ReflTransGen.single (SchedStep.add 0 (SchedState.init Nat 2)),
    claim_sched_invariant 2 (by decide) _
      (Relation.ReflTransGen.single (SchedStep.add 0 (SchedState.init Nat 2)))⟩

/-- C7. With capacity 2 and requesters 0 (A), 1 (B), 2 (C) admitted in
that order, followed by the three completions in any order the scheduler
permits: exactly two started events fire before any finished event (and in
admission order, 0 then 1); C's started event fires only after the first
finished event of A or B (fourth in the log, right after a finished of 0 or
1); after all three complete, `free_room` is back to the original capacity
with nothing queued or running; and every requester receives exactly one
started and exactly one finished event, its started strictly before its
finished. -/
theorem claim_sched_capacity_two_scenario (cs : List Nat)
    (hperm : cs.Perm [0, 1, 2])
    (hvalid : schedValid
        ([SchedAction.enqueue 0, .enqueue 1, .enqueue 2] ++ cs.map SchedAction.complete)
        (SchedState.init Nat 2) = true) :
    ((schedExec ([SchedAction.enqueue 0, .enqueue 1, .enqueue 2] ++
          cs.map SchedAction.complete) (SchedState.init Nat 2)).log.takeWhile
        (fun e => !e.isFinished) = [.started 0, .started 1]) ∧
    (∃ x ∈ ([0, 1] : List Nat),
      (schedExec ([SchedAction.enqueue 0, .enqueue 1, .enqueue 2] ++
          cs.map SchedAction.complete) (SchedState.init Nat 2)).log.take 4 =
        [.started 0, .started 1, .finished x, .started 2]) ∧
    ((schedExec ([SchedAction.enqueue 0, .enqueue 1, .enqueue 2] ++
        cs.map SchedAction.complete) (SchedState.init Nat 2)).free_room = 2 ∧
      (schedExec ([SchedAction.enqueue 0, .enqueue 1, .enqueue 2] ++
        cs.map SchedAction.complete) (SchedState.init Nat 2)).queue = [] ∧
      (schedExec ([SchedAction.enqueue 0, .enqueue 1, .enqueue 2] ++
        cs.map SchedAction.complete) (SchedState.init Nat 2)).running = []) ∧
    (∀ r ∈ ([0, 1, 2] : List Nat),
      ((schedExec ([SchedAction.enqueue 0, .enqueue 1, .enqueue 2] ++
          cs.map SchedAction.complete) (SchedState.init Nat 2)).log.count
        (.started r) = 1 ∧
       (schedExec ([SchedAction.enqueue 0, .enqueue 1, .enqueue 2] ++
          cs.map SchedAction.complete) (SchedState.init Nat 2)).log.count
        (.finished r) = 1) ∧
      .started r ∈ (schedExec ([SchedAction.enqueue 0, .enqueue 1, .enqueue 2] ++
          cs.map SchedAction.complete) (SchedState.init Nat 2)).log.takeWhile
        (fun e => e ≠ .finished r)) := by
  obtain ⟨a, b, c, rfl⟩ : ∃ a b c, cs = [a, b, c] :=
    List.length_eq_three.mp hperm.length_eq
  have ha : a ∈ ([0, 1, 2] : List Nat) := hperm.mem_iff.mp (by simp)
  have hb : b ∈ ([0, 1, 2] : List Nat) := hperm.mem_iff.mp (by simp)
  have hc : c ∈ ([0, 1, 2] : List Nat) := hperm.mem_iff.mp (by simp)
  simp only [List.mem_cons, List.mem_singleton, List.not_mem_nil, or_false] at ha hb hc
  rcases ha with rfl | rfl | rfl <;> rcases hb with rfl | rfl | rfl <;>
    rcases hc with rfl | rfl | rfl <;> revert hvalid <;> decide

/-- Witness for C7: completion order 0, 1, 2 is a valid permutation of the
three admitted requesters, and the scenario's conclusions hold for it. -/
theorem claim_sched_capacity_two_scenario_witness :
    ([0, 1, 2] : List Nat).Perm [0, 1, 2] ∧
    schedValid ([SchedAction.enqueue 0, .enqueue 1, .enqueue 2] ++
        [0, 1, 2].map SchedAction.complete) (SchedState.init Nat 2) = true ∧
    ((schedExec ([SchedAction.enqueue 0, .enqueue 1, .enqueue 2] ++
        [0, 1, 2].map SchedAction.complete) (SchedState.init Nat 2)).free_room = 2 ∧
      (schedExec ([SchedAction.enqueue 0, .enqueue 1, .enqueue 2] ++
        [0, 1, 2].map SchedAction.complete) (SchedState.init Nat 2)).queue = [] ∧
      (schedExec ([SchedAction.enqueue 0, .enqueue 1, .enqueue 2] ++
        [0, 1, 2].map SchedAction.complete) (SchedState.init Nat 2)).running = []) :=
  ⟨List.Perm.refl _, by decide,
    (claim_sched_capacity_two_scenario [0, 1, 2] (List.Perm.refl _) (by decide)).2.2.1⟩

end GeditGrammalecte
